import Mathlib

/-!
dso-email-header-anonymizer: a verification development
=======================================================

A shallow embedding of `src/main.py` (the email-header anonymizer) over
`List Char`, together with theorems about the pipeline: message splitting,
header tokenization, per-header classification/rewriting, the Received-header
trace obfuscation (the two `re.sub` passes), and final assembly.

Strings are modelled as `List Char`.  The regular-expression substitutions of
the source are modelled by a scanner with the exact ordered-alternative
backtracking semantics of the two concrete patterns used by the code; the
replacement text is spliced literally (the synthetic provider values contain
no regex escape sequences).  Character predicates follow the ASCII semantics
of the patterns; `str.lower()` is modelled charwise over ASCII, which is
extensionally adequate for the fixed lowercase header names the code compares
against.
-/

set_option autoImplicit false

namespace EmailAnon

/-- Convert a string literal to the `List Char` representation used throughout. -/
def s2l (s : String) : List Char := s.data

/-! ## Case-insensitive matching (Python `line.lower().startswith(name)`) -/

/-- The ASCII lowercase/uppercase letter pairs. -/
def upPairs : List (Char × Char) :=
  [('a', 'A'), ('b', 'B'), ('c', 'C'), ('d', 'D'), ('e', 'E'), ('f', 'F'),
   ('g', 'G'), ('h', 'H'), ('i', 'I'), ('j', 'J'), ('k', 'K'), ('l', 'L'),
   ('m', 'M'), ('n', 'N'), ('o', 'O'), ('p', 'P'), ('q', 'Q'), ('r', 'R'),
   ('s', 'S'), ('t', 'T'), ('u', 'U'), ('v', 'V'), ('w', 'W'), ('x', 'X'),
   ('y', 'Y'), ('z', 'Z')]

/-- Holds when `c` lowercases to `a` (ASCII): either `c = a`, or
`a` is a lowercase letter and `c` its uppercase variant. -/
def ciChar (a c : Char) : Bool := c == a || decide ((a, c) ∈ upPairs)

/-- Tests that `h` starts with `pat` up to ASCII case on each character;
this models `h.lower().startswith(pat)` for the lowercase patterns used by the
source. -/
def ciStarts : List Char → List Char → Bool
  | [], _ => true
  | _ :: _, [] => false
  | a :: ps, c :: t => ciChar a c && ciStarts ps t

/-- The field name of a header line: the substring before the first colon. -/
def fieldName (h : List Char) : List Char := h.takeWhile (fun c => c ≠ ':')

/-- States that the field name of `h` equals `nm` case-insensitively
(`nm` is given in lowercase). -/
def fieldNameIs (nm h : List Char) : Prop :=
  (fieldName h).length = nm.length ∧ ciStarts nm (fieldName h) = true

instance (nm h : List Char) : Decidable (fieldNameIs nm h) := by
  unfold fieldNameIs; infer_instance

/-- The known header-name table of the classifier. -/
def knownNames : List (List Char) :=
  [s2l "received", s2l "x-mailer", s2l "message-id", s2l "date",
   s2l "from", s2l "to", s2l "reply-to"]

/-! ## Physical lines (Python `str.splitlines`) -/

/-- The line-boundary characters recognised by Python `str.splitlines`. -/
def isLineBreak (c : Char) : Bool :=
  c == '\n' || c == '\r' || c == '\x0b' || c == '\x0c' ||
  c == '\x1c' || c == '\x1d' || c == '\x1e' || c == '\x85' ||
  c == '\u2028' || c == '\u2029'

/-- Python `str.splitlines`: split at each line boundary (`\r\n` counting as a
single boundary), with no trailing empty line for a trailing terminator. -/
def splitlines : List Char → List (List Char)
  | [] => []
  | [c] => if isLineBreak c then [[]] else [[c]]
  | c :: d :: rest =>
    if c = '\r' && d = '\n' then [] :: splitlines rest
    else if isLineBreak c then [] :: splitlines (d :: rest)
    else
      match splitlines (d :: rest) with
      | [] => [[c]]
      | l :: ls => (c :: l) :: ls

/-- Python `'\n'.join(lines)`. -/
def joinLF : List (List Char) → List Char
  | [] => []
  | [l] => l
  | l :: ls => l ++ '\n' :: joinLF ls

/-! ## Substring search (Python `marker in text` / `text.split(marker, 1)`) -/

/-- Python `pat in s` for a nonempty pattern. -/
def containsSub (pat : List Char) : List Char → Bool
  | [] => pat.isPrefixOf []
  | c :: t => pat.isPrefixOf (c :: t) || containsSub pat t

/-- Split at the first occurrence of `pat`: `s.split(pat, 1)` when `pat` occurs. -/
def splitFirst (pat : List Char) : List Char → Option (List Char × List Char)
  | [] => if pat.isPrefixOf [] then some ([], []) else none
  | c :: t =>
    if pat.isPrefixOf (c :: t) then some ([], (c :: t).drop pat.length)
    else (splitFirst pat t).map fun r => (c :: r.1, r.2)

/-- The bare double line-break boundary marker. -/
def lflf : List Char := ['\n', '\n']

/-- The carriage-return qualified double line-break boundary marker. -/
def crlfcrlf : List Char := ['\r', '\n', '\r', '\n']

/-- The splitter of `anonymize_email_headers`: try `"\n\n"`, then
`"\r\n\r\n"`; split the message at the first occurrence of the chosen marker.
Returns `(headerPart, marker, bodyPart)`, or `none` when neither marker
occurs (the "could not determine the header/body separator" error path). -/
def splitMessage (t : List Char) : Option (List Char × List Char × List Char) :=
  if containsSub lflf t then
    (splitFirst lflf t).map fun r => (r.1, lflf, r.2)
  else if containsSub crlfcrlf t then
    (splitFirst crlfcrlf t).map fun r => (r.1, crlfcrlf, r.2)
  else none

/-- The tokenizer: `header_part.splitlines()`. -/
def tokenize (hp : List Char) : List (List Char) := splitlines hp

/-! ## The two regex matchers of the Received-header obfuscation

The IPv4 pattern of the source is
`\b(?:(?:25[0-5]|2[0-4][0-9]|[01]?[0-9][0-9]?)\.){3}(?:25[0-5]|2[0-4][0-9]|[01]?[0-9][0-9]?)\b`
and the hostname pattern is `\[?([a-zA-Z0-9.-]+)\]?`.  Both are modelled as
match-at-position functions returning the length matched, with the ordered
alternative/backtracking semantics of the Python `re` engine. -/

/-- A regex word character (`\w`), over the ASCII range. -/
def wordChar (c : Char) : Bool := c.isAlphanum || c == '_'

/-- Tests that the optional character is a decimal digit. -/
def digitO (o : Option Char) : Bool :=
  match o with
  | some c => c.isDigit
  | none => false

/-- Tests that the optional character lies in the inclusive range. -/
def inRange (o : Option Char) (lo hi : Char) : Bool :=
  match o with
  | some c => lo ≤ c && c ≤ hi
  | none => false

/-- The candidate lengths, in the regex engine's preference order, with which
the octet group `(?:25[0-5]|2[0-4][0-9]|[01]?[0-9][0-9]?)` can match at the
head of `s`. -/
def octetLens (s : List Char) : List Nat :=
  let d0 := s.head?
  let d1 := s.tail.head?
  let d2 := s.tail.tail.head?
  (if d0 = some '2' && d1 = some '5' && inRange d2 '0' '5' then [3] else []) ++
  (if d0 = some '2' && inRange d1 '0' '4' && digitO d2 then [3] else []) ++
  (if inRange d0 '0' '1' && digitO d1 && digitO d2 then [3] else []) ++
  (if inRange d0 '0' '1' && digitO d1 then [2] else []) ++
  (if digitO d0 && digitO d1 then [2] else []) ++
  (if digitO d0 then [1] else [])

/-- Match `octet ('.' octet){dots}` followed by a closing word boundary at the
head of `s`, backtracking through the octet alternatives; returns the total
length matched. -/
def ipTail : Nat → List Char → Option Nat
  | 0, s =>
    (octetLens s).findSome? fun l =>
      match (s.drop l).head? with
      | none => some l
      | some c => if wordChar c then none else some l
  | d + 1, s =>
    (octetLens s).findSome? fun l =>
      match s.drop l with
      | c :: rest => if c = '.' then (ipTail d rest).map fun t => l + 1 + t else none
      | [] => none

/-- The IPv4 matcher at a position: `prev` is the character preceding the
position (for the leading `\b`; the first pattern character is a digit, so the
boundary holds exactly when `prev` is absent or not a word character). -/
def ipv4M (prev : Option Char) (s : List Char) : Option Nat :=
  match prev with
  | some c => if wordChar c then none else ipTail 3 s
  | none => ipTail 3 s

/-- The hostname-token character class `[a-zA-Z0-9.-]`. -/
def hostClass (c : Char) : Bool := c.isAlphanum || c == '.' || c == '-'

/-- Match `\[?([a-zA-Z0-9.-]+)\]?` at the head of `s`: an optional opening
bracket, a maximal nonempty class run, an optional closing bracket. -/
def hostMatchAt (s : List Char) : Option Nat :=
  match s with
  | [] => none
  | c :: rest =>
    if c = '[' then
      match rest with
      | [] => none
      | c2 :: r2 =>
        if hostClass c2 then
          let r := ((c2 :: r2).takeWhile hostClass).length
          some (1 + r + (if ((c2 :: r2).drop r).head? = some ']' then 1 else 0))
        else none
    else if hostClass c then
      let r := ((c :: rest).takeWhile hostClass).length
      some (r + (if ((c :: rest).drop r).head? = some ']' then 1 else 0))
    else none

/-- The hostname matcher at a position (the pattern has no boundary
assertions, so the preceding character is irrelevant). -/
def hostM (_ : Option Char) (s : List Char) : Option Nat := hostMatchAt s

/-! ## `re.sub` with a constant replacement -/

/-- Core scanner of `re.sub(pattern, repl, s)` with a constant replacement:
scan left to right, replace each leftmost nonoverlapping match and continue
after it; `prev` tracks the original character preceding the scan position
(for `\b`).  `fuel` bounds the recursion and is initialised to the input
length, which every step strictly decreases by at least the number of
characters consumed. -/
def subAllAux (m : Option Char → List Char → Option Nat) (repl : List Char) :
    Nat → Option Char → List Char → List Char
  | _, _, [] => []
  | 0, _, s => s
  | fuel + 1, prev, c :: rest =>
    match m prev (c :: rest) with
    | none => c :: subAllAux m repl fuel (some c) rest
    | some n =>
      if n = 0 then c :: subAllAux m repl fuel (some c) rest
      else repl ++ subAllAux m repl fuel ((c :: rest).get? (n - 1)) (List.drop n (c :: rest))

/-- Python `re.sub(pattern, repl, s)` with a constant replacement string. -/
def subAll (m : Option Char → List Char → Option Nat) (repl : List Char)
    (s : List Char) : List Char :=
  subAllAux m repl s.length none s

/-- Variant scanner in which the `j`-th match (counting from `j₀`) is replaced
by `vals j`: substitution with a freshly drawn value per match.  Returns the
rewritten text and the next unused value index. -/
def subPerMatchAux (m : Option Char → List Char → Option Nat)
    (vals : Nat → List Char) :
    Nat → Nat → Option Char → List Char → List Char × Nat
  | _, j, _, [] => ([], j)
  | 0, j, _, s => (s, j)
  | fuel + 1, j, prev, c :: rest =>
    match m prev (c :: rest) with
    | none =>
      let r := subPerMatchAux m vals fuel j (some c) rest
      (c :: r.1, r.2)
    | some n =>
      if n = 0 then
        let r := subPerMatchAux m vals fuel j (some c) rest
        (c :: r.1, r.2)
      else
        let r := subPerMatchAux m vals fuel (j + 1) ((c :: rest).get? (n - 1))
          (List.drop n (c :: rest))
        (vals j ++ r.1, r.2)

/-- Substitution replacing the `j`-th match by `vals (j₀ + j)`. -/
def subPerMatch (m : Option Char → List Char → Option Nat)
    (vals : Nat → List Char) (j0 : Nat) (s : List Char) : List Char × Nat :=
  subPerMatchAux m vals s.length j0 none s

/-! ## The synthetic value provider and the classifier -/

/-- The injected synthetic value provider (`Faker`): six typed streams drawn
with a single shared call counter — the `i`-th provider call overall draws
index `i` of the stream of the method called. -/
structure Provider where
  fakeName : Nat → List Char
  fakeEmail : Nat → List Char
  fakeDomain : Nat → List Char
  fakeIpv4 : Nat → List Char
  fakeUuid : Nat → List Char
  fakeDate : Nat → List Char

/-- The two per-run configuration flags. -/
structure Config where
  keepXMailer : Bool
  obfuscateReceived : Bool

/-- The Received-header trace obfuscation: one `fake.ipv4()` call whose value
replaces every IPv4 match of the line, then one `fake.domain_name()` call
whose value replaces every hostname-token match of the result.  Returns the
rewritten line and the advanced provider counter. -/
def obfuscateLine (p : Provider) (k : Nat) (h : List Char) : List Char × Nat :=
  let step1 := subAll ipv4M (p.fakeIpv4 k) h
  let step2 := subAll hostM (p.fakeDomain (k + 1)) step1
  (step2, k + 2)

def rcvdPat : List Char := s2l "received:"
def xmlrPat : List Char := s2l "x-mailer:"
def msgidPat : List Char := s2l "message-id:"
def datePat : List Char := s2l "date:"
def fromPat : List Char := s2l "from:"
def toPat : List Char := s2l "to:"
def rplyPat : List Char := s2l "reply-to:"

/-- The classifier and rewriter: the chained conditional of the source's
header loop, producing the output lines (zero or one) of one header record
and the advanced provider counter. -/
def rewriteOne (cfg : Config) (p : Provider) (k : Nat) (h : List Char) :
    List (List Char) × Nat :=
  if ciStarts rcvdPat h then
    if cfg.obfuscateReceived then
      let r := obfuscateLine p k h
      ([r.1], r.2)
    else ([], k)
  else if ciStarts xmlrPat h then
    if cfg.keepXMailer then ([h], k) else ([], k)
  else if ciStarts msgidPat h then
    ([s2l "Message-ID: <" ++ p.fakeUuid k ++ '@' :: p.fakeDomain (k + 1) ++ ['>']], k + 2)
  else if ciStarts datePat h then
    ([s2l "Date: " ++ p.fakeDate k], k + 1)
  else if ciStarts fromPat h then
    ([s2l "From: " ++ p.fakeName k ++ ' ' :: '<' :: p.fakeEmail (k + 1) ++ ['>']], k + 2)
  else if ciStarts toPat h then
    ([s2l "To: " ++ p.fakeName k ++ ' ' :: '<' :: p.fakeEmail (k + 1) ++ ['>']], k + 2)
  else if ciStarts rplyPat h then
    ([s2l "Reply-To: " ++ p.fakeName k ++ ' ' :: '<' :: p.fakeEmail (k + 1) ++ ['>']], k + 2)
  else ([h], k)

/-- The header loop: rewrite each record in order, threading the provider
counter; returns the surviving output lines and the final counter. -/
def anonymizeHeaders (cfg : Config) (p : Provider) :
    Nat → List (List Char) → List (List Char) × Nat
  | k, [] => ([], k)
  | k, h :: t =>
    let r := rewriteOne cfg p k h
    let rest := anonymizeHeaders cfg p r.2 t
    (r.1 ++ rest.1, rest.2)

/-- The assembler: `'\n'.join(lines) + marker + body`. -/
def assemble (lines : List (List Char)) (m b : List Char) : List Char :=
  joinLF lines ++ m ++ b

/-- The whole transformation of `anonymize_email_headers` on decoded text:
split, tokenize, classify/rewrite each header, assemble.  `none` models the
fatal no-boundary error path, on which nothing is written. -/
def anonymizeEmail (cfg : Config) (p : Provider) (t : List Char) :
    Option (List Char) :=
  match splitMessage t with
  | none => none
  | some (hp, m, b) => some (assemble (anonymizeHeaders cfg p 0 (tokenize hp)).1 m b)

/-- Splitting followed by `tokenize` and `assemble` with every header passed
through unmodified. -/
def identityAssemble (t : List Char) : Option (List Char) :=
  match splitMessage t with
  | none => none
  | some (hp, m, b) => some (assemble (tokenize hp) m b)

/-- The process-level behaviour of `main`: exit status and the written output
(if any).  A missing input file exits `1`; otherwise `anonymize_email_headers`
runs, and the process exits `0` whether or not it succeeded (its error paths
log and return). -/
def runProgram (inputExists : Bool) (cfg : Config) (p : Provider)
    (t : List Char) : Nat × Option (List Char) :=
  if !inputExists then (1, none)
  else
    match anonymizeEmail cfg p t with
    | none => (0, none)
    | some out => (0, some out)

/-! ## Spec-side measures and concrete instances -/

/-- A physical line is a continuation line when it begins with a space or tab. -/
def startsWS (l : List Char) : Bool :=
  match l with
  | c :: _ => c == ' ' || c == '\t'
  | [] => false

/-- The number of non-continuation physical lines of a header block (the
record count the specification's tokenizer contract predicts). -/
def nonContCount (hp : List Char) : Nat :=
  ((splitlines hp).filter fun l => !startsWS l).length

/-- The literal `Received:` output-line test of the specification. -/
def recvLit : List Char := s2l "Received:"

/-- The literal field name `Received` (without the colon). -/
def recvName : List Char := s2l "Received"

/-- A concrete deterministic synthetic-value provider used in the concrete
evaluations: format-valid values of each shape. -/
def provC : Provider where
  fakeName := fun _ => s2l "John Smith"
  fakeEmail := fun _ => s2l "jane@example.net"
  fakeDomain := fun _ => s2l "example.org"
  fakeIpv4 := fun i => if i = 0 then s2l "9.9.9.9" else s2l "8.8.8.8"
  fakeUuid := fun _ => s2l "0000-1111"
  fakeDate := fun _ => s2l "2001-02-03 04:05:06"

/-- The Received trace line of the specification's concrete test property. -/
def traceLineC : List Char :=
  s2l "Received: from mail.example.com (192.168.1.10) by relay.test (10.0.0.5)"

/-! ## Counterexamples for the claims the code refutes -/

/-- C1 counterexample: on the specification's own test line, with
`obfuscateReceived = true` and a provider yielding `9.9.9.9` / `example.org`,
the single output line of the rewriter is the obfuscated line, and it does
not start with `Received:` — the hostname pass rewrites the field-name token
itself. -/
theorem c1_received_prefix_lost :
    (rewriteOne ⟨false, true⟩ provC 0 traceLineC).1 = [(obfuscateLine provC 0 traceLineC).1] ∧
      recvLit.isPrefixOf (obfuscateLine provC 0 traceLineC).1 = false := by
  constructor
  · rfl
  · decide

/-- C2 counterexample: the IPv4 pass of the obfuscator is not a per-match
fresh substitution.  On a Received line with two IPv4 literals, one provider
draw (`9.9.9.9`) replaces both matches, whereas drawing a fresh value per
match would put `9.9.9.9` then `8.8.8.8`. -/
theorem c2_not_per_match_fresh :
    subAll ipv4M (provC.fakeIpv4 0) (s2l "Received: by 1.1.1.1 via 2.2.2.2") ≠
      (subPerMatch ipv4M provC.fakeIpv4 0 (s2l "Received: by 1.1.1.1 via 2.2.2.2")).1 := by
  decide

/-- C3 counterexample: on the header block `"A: x\n B: y"`, whose second
physical line begins with a space, the tokenizer produces two records — not
one per non-continuation line — and promotes the continuation line to a
record of its own instead of appending it to the previous record. -/
theorem c3_continuation_promoted :
    (tokenize (s2l "A: x\n B: y")).length ≠ nonContCount (s2l "A: x\n B: y") ∧
      s2l " B: y" ∈ tokenize (s2l "A: x\n B: y") := by
  decide

/-- C4 counterexample: on an input containing neither boundary-marker variant
the process writes no output, but exits with status `0`, not a non-zero
status. -/
theorem c4_exit_status_zero :
    containsSub lflf (s2l "hello") = false ∧
      containsSub crlfcrlf (s2l "hello") = false ∧
      runProgram true ⟨false, false⟩ provC (s2l "hello") = (0, none) := by
  decide

/-- C5 counterexample: on a message whose header block uses CRLF line
endings, `split` followed by `assemble` with no header modification is not
the identity — the header block's internal `\r\n` separators are rejoined
with `\n`. -/
theorem c5_not_identity_on_crlf :
    (splitMessage (s2l "X-A: x\r\nX-B: y\r\n\r\nbody")).isSome = true ∧
      identityAssemble (s2l "X-A: x\r\nX-B: y\r\n\r\nbody") ≠
        some (s2l "X-A: x\r\nX-B: y\r\n\r\nbody") := by
  decide

/-- C6 counterexample: on `"A\r\n\r\nB\n\nC"` the carriage-return-qualified
marker occurs in the input, yet the splitter chooses the bare `"\n\n"`
variant (the code tests `"\n\n"` first), splitting after `"A\r\n\r\nB"`. -/
theorem c6_lflf_checked_first :
    containsSub crlfcrlf (s2l "A\r\n\r\nB\n\nC") = true ∧
      splitMessage (s2l "A\r\n\r\nB\n\nC") =
        some (s2l "A\r\n\r\nB", lflf, s2l "C") ∧
      lflf ≠ crlfcrlf := by
  decide

/-- C7 counterexample: with `obfuscateReceived = true` and one input Received
header, the count of output lines beginning with `Received:` is `0`, not `1`:
the obfuscated line begins with the synthetic domain instead. -/
theorem c7_received_count_mismatch :
    ((anonymizeHeaders ⟨false, true⟩ provC 0 [s2l "Received: from a.b (1.2.3.4)"]).1.countP
        fun l => recvLit.isPrefixOf l) = 0 ∧
      ([s2l "Received: from a.b (1.2.3.4)"].countP fun h => ciStarts rcvdPat h) = 1 := by
  decide

/-! ## Substitution lemmas -/

/-- A constant-replacement substitution is the per-match substitution with a
constant value stream: every match is replaced by one and the same value. -/
theorem subAllAux_eq_perMatch (m : Option Char → List Char → Option Nat)
    (v : List Char) :
    ∀ (fuel j : Nat) (prev : Option Char) (s : List Char),
      subAllAux m v fuel prev s = (subPerMatchAux m (fun _ => v) fuel j prev s).1 := by
  intro fuel
  induction fuel with
  | zero => intro j prev s; cases s <;> rfl
  | succ f ih =>
    intro j prev s
    cases s with
    | nil => rfl
    | cons c rest =>
      show (match m prev (c :: rest) with
        | none => c :: subAllAux m v f (some c) rest
        | some n =>
          if n = 0 then c :: subAllAux m v f (some c) rest
          else v ++ subAllAux m v f ((c :: rest).get? (n - 1)) (List.drop n (c :: rest))) = _
      cases hm : m prev (c :: rest) with
      | none =>
        show c :: subAllAux m v f (some c) rest = _
        simp only [subPerMatchAux, hm]
        exact congrArg (c :: ·) (ih j (some c) rest)
      | some n =>
        by_cases hn : n = 0
        · subst hn
          simp only [subPerMatchAux, hm, if_pos rfl]
          exact congrArg (c :: ·) (ih j (some c) rest)
        · simp only [subPerMatchAux, hm, if_neg hn]
          exact congrArg (v ++ ·) (ih (j + 1) ((c :: rest).get? (n - 1)) (List.drop n (c :: rest)))

/-- Writes `subAll` as a per-match substitution drawing the same value at every match. -/
theorem subAll_eq_perMatch (m : Option Char → List Char → Option Nat)
    (v : List Char) (s : List Char) (j : Nat) :
    subAll m v s = (subPerMatch m (fun _ => v) j s).1 :=
  subAllAux_eq_perMatch m v s.length j none s

/-! ## Physical-line lemmas -/

/-- Splitting a nonempty text yields a nonempty line list. -/
theorem splitlines_ne_nil : ∀ s : List Char, s ≠ [] → splitlines s ≠ [] := by
  intro s hs
  match s with
  | [c] =>
    simp only [splitlines]
    split <;> simp
  | c :: d :: rest =>
    simp only [splitlines]
    split
    · simp
    · split
      · simp
      · split <;> simp

/-- Splitting off a leading `\n`. -/
theorem splitlines_lf (rest : List Char) :
    splitlines ('\n' :: rest) = [] :: splitlines rest := by
  cases rest with
  | nil => rfl
  | cons d t =>
    simp only [splitlines]
    have h1 : ('\n' = '\r' && d = '\n') = false := by simp
    rw [h1]
    simp [isLineBreak]

/-- Splitting at a non-boundary character extends the first line. -/
theorem splitlines_not_break (c : Char) (rest : List Char)
    (h : isLineBreak c = false) :
    splitlines (c :: rest) =
      match splitlines rest with
      | [] => [[c]]
      | l :: ls => (c :: l) :: ls := by
  have hc : (c = '\r') = False := by
    simp only [eq_iff_iff, iff_false]
    intro hh; subst hh; simp [isLineBreak] at h
  cases rest with
  | nil => simp [splitlines, h]
  | cons d t =>
    simp only [splitlines, hc, false_and, Bool.and_eq_true, decide_eq_true_eq, if_neg, h]
    simp [hc, h]

/-- Joining: an empty first line contributes a single `\n`. -/
theorem joinLF_nil_cons (l : List Char) (ls : List (List Char)) :
    joinLF ([] :: l :: ls) = '\n' :: joinLF (l :: ls) := rfl

/-- Joining: a character prepended to the first line is prepended to the join. -/
theorem joinLF_cons_head (c : Char) (l : List Char) (ls : List (List Char)) :
    joinLF ((c :: l) :: ls) = c :: joinLF (l :: ls) := by
  cases ls <;> rfl

/-- On text whose only line-boundary characters are inner bare `\n`s (and
which does not end on one), joining the split lines with `\n` restores the
text. -/
theorem joinLF_splitlines : ∀ hp : List Char,
    (∀ c ∈ hp, isLineBreak c = true → c = '\n') →
    hp.getLast? ≠ some '\n' →
    joinLF (splitlines hp) = hp := by
  intro hp
  induction hp with
  | nil => intro _ _; rfl
  | cons c rest ih =>
    intro hall hlast
    have hrest_last : rest ≠ [] → rest.getLast? ≠ some '\n' := by
      intro h0
      cases rest with
      | nil => exact absurd rfl h0
      | cons d t => rw [← List.getLast?_cons_cons (l := t)]; exact hlast
    by_cases hbr : isLineBreak c = true
    · have hc : c = '\n' := hall c (by simp) hbr
      subst hc
      rw [splitlines_lf]
      have hrest : rest ≠ [] := by
        intro h0; subst h0; simp at hlast
      obtain ⟨l, ls, hsl⟩ : ∃ l ls, splitlines rest = l :: ls := by
        cases hq : splitlines rest with
        | nil => exact absurd hq (splitlines_ne_nil rest hrest)
        | cons a as => exact ⟨a, as, rfl⟩
      have ihh := ih (fun d hd hbd => hall d (by simp [hd]) hbd) (hrest_last hrest)
      rw [hsl, joinLF_nil_cons, ← hsl, ihh]
    · rw [splitlines_not_break c rest (by simpa using hbr)]
      cases hq : splitlines rest with
      | nil =>
        have h0 : rest = [] := by
          by_contra hne
          exact splitlines_ne_nil rest hne hq
        subst h0
        rfl
      | cons l ls =>
        have hrest : rest ≠ [] := by
          intro h0; subst h0; simp [splitlines] at hq
        have ihh := ih (fun d hd hbd => hall d (by simp [hd]) hbd) (hrest_last hrest)
        rw [joinLF_cons_head, ← hq, ihh]

/-! ## Splitter lemmas -/

/-- Containment agrees with the success of `splitFirst`. -/
theorem containsSub_iff_splitFirst (pat : List Char) :
    ∀ s, containsSub pat s = true ↔ (splitFirst pat s).isSome = true := by
  intro s
  induction s with
  | nil =>
    by_cases hp : pat.isPrefixOf [] = true <;>
      simp [containsSub, splitFirst, hp]
  | cons c t ih =>
    by_cases hp : pat.isPrefixOf (c :: t) = true
    · simp [containsSub, splitFirst, hp]
    · simp only [containsSub, splitFirst, hp, if_neg, Bool.false_or, ih,
        Option.isSome_map]
      simp [hp]

/-- When `splitFirst` succeeds, it has cut the text around the pattern. -/
theorem splitFirst_append (pat : List Char) :
    ∀ (s a b : List Char), splitFirst pat s = some (a, b) → s = a ++ pat ++ b := by
  intro s
  induction s with
  | nil =>
    intro a b h
    by_cases hp : pat.isPrefixOf [] = true
    · have hpat : pat = [] := List.prefix_nil.mp ( List.isPrefixOf_iff_prefix.mp hp)
      simp [splitFirst, hp, hpat] at h
      obtain ⟨ha, hb⟩ := h
      subst hpat; subst ha; subst hb
      rfl
    · simp [splitFirst, hp] at h
  | cons c t ih =>
    intro a b h
    by_cases hp : pat.isPrefixOf (c :: t) = true
    · simp only [splitFirst, if_pos hp] at h
      obtain ⟨ha, hb⟩ := Prod.mk.injEq .. ▸ Option.some.injEq .. ▸ h
      have hpre : pat <+: c :: t := List.isPrefixOf_iff_prefix.mp hp
      have := List.prefix_iff_eq_append.mp hpre
      simp [← ha, ← hb, this]
    · simp only [splitFirst, if_neg hp, Option.map_eq_some'] at h
      obtain ⟨r, hr, hab⟩ := h
      have := ih r.1 r.2 hr
      cases hab
      simp [this]

/-- When `splitFirst` succeeds, no occurrence of the pattern starts before the
cut: the cut is at the first occurrence. -/
theorem splitFirst_first (pat : List Char) :
    ∀ (s a b : List Char), splitFirst pat s = some (a, b) →
      ∀ i, i < a.length → ¬ pat <+: s.drop i := by
  intro s
  induction s with
  | nil =>
    intro a b h i hi
    by_cases hp : pat.isPrefixOf [] = true
    · simp [splitFirst, hp] at h
      rw [h.1] at hi
      simp at hi
    · simp [splitFirst, hp] at h
  | cons c t ih =>
    intro a b h i hi
    by_cases hp : pat.isPrefixOf (c :: t) = true
    · simp [splitFirst, hp] at h
      rw [h.1] at hi
      simp at hi
    · simp only [splitFirst, if_neg hp, Option.map_eq_some'] at h
      obtain ⟨r, hr, hab⟩ := h
      cases hab
      cases i with
      | zero =>
        intro hcon
        exact hp ( List.isPrefixOf_iff_prefix.mpr hcon)
      | succ i =>
        simp only [List.length_cons, Nat.succ_lt_succ_iff] at hi
        exact ih r.1 r.2 hr i hi

/-! ## Case-insensitive matching lemmas -/

theorem ciChar_iff {a c : Char} : ciChar a c = true ↔ c = a ∨ (a, c) ∈ upPairs := by
  simp [ciChar]

/-- Only the colon itself lowercases to a colon. -/
theorem ciChar_colon {c : Char} (h : ciChar ':' c = true) : c = ':' := by
  rcases ciChar_iff.mp h with rfl | hm
  · rfl
  · simp [upPairs] at hm

/-- A character matching a non-colon pattern character is not a colon. -/
theorem ciChar_ne_colon {a c : Char} (ha : a ≠ ':') (h : ciChar a c = true) :
    c ≠ ':' := by
  rcases ciChar_iff.mp h with rfl | hm
  · exact ha
  · rintro rfl
    have hall : ∀ pr ∈ upPairs, pr.2 ≠ ':' := by decide
    exact hall _ hm rfl

/-- Characters matching a lowercase-letter pattern character are not digits,
lie in the hostname class, and are not an opening bracket. -/
theorem ciChar_facts {a c : Char} (h : ciChar a c = true)
    (ha : a.isDigit = false ∧ hostClass a = true ∧ a ≠ '[') :
    c.isDigit = false ∧ hostClass c = true ∧ c ≠ '[' := by
  rcases ciChar_iff.mp h with rfl | hm
  · exact ha
  · have hall : ∀ pr ∈ upPairs, pr.2.isDigit = false ∧ hostClass pr.2 = true ∧ pr.2 ≠ '[' := by
      decide
    exact hall _ hm

/-- Destructure a case-insensitive prefix match one character at a time. -/
theorem ciStarts_head {a : Char} {ps h : List Char}
    (hci : ciStarts (a :: ps) h = true) :
    ∃ c t, h = c :: t ∧ ciChar a c = true ∧ ciStarts ps t = true := by
  cases h with
  | nil => simp [ciStarts] at hci
  | cons c t =>
    simp only [ciStarts, Bool.and_eq_true] at hci
    exact ⟨c, t, rfl, hci.1, hci.2⟩

/-- A case-insensitive match of `name ++ ":"` determines the field name. -/
theorem fieldNameIs_of_ciStarts :
    ∀ (nm h : List Char), (∀ a ∈ nm, a ≠ ':') →
      ciStarts (nm ++ [':']) h = true → fieldNameIs nm h := by
  intro nm
  induction nm with
  | nil =>
    intro h _ hci
    rcases ciStarts_head hci with ⟨c, t, rfl, hc, _⟩
    have hcc : c = ':' := ciChar_colon hc
    subst hcc
    exact ⟨by simp [fieldName], by simp [fieldName, ciStarts]⟩
  | cons a nm ih =>
    intro h hcol hci
    rcases ciStarts_head hci with ⟨c, t, rfl, hc, hrest⟩
    have hane : a ≠ ':' := hcol a (by simp)
    have hcne : c ≠ ':' := ciChar_ne_colon hane hc
    obtain ⟨hlen, hcifn⟩ := ih t (fun x hx => hcol x (by simp [hx])) hrest
    have hfn : fieldName (c :: t) = c :: fieldName t := by
      simp [fieldName, List.takeWhile_cons, hcne]
    constructor
    · simp [hfn, hlen]
    · simp [hfn, ciStarts, hc, hcifn]

/-- Splitting a line containing a colon around its first colon. -/
theorem fieldName_colon_split : ∀ h : List Char, ':' ∈ h →
    ∃ r, h = fieldName h ++ ':' :: r := by
  intro h
  induction h with
  | nil => simp
  | cons c t ih =>
    intro hmem
    by_cases hc : c = ':'
    · subst hc
      exact ⟨t, by simp [fieldName]⟩
    · have hmt : ':' ∈ t := by
        rcases List.mem_cons.mp hmem with h1 | h1
        · exact absurd h1.symm hc
        · exact h1
      obtain ⟨r, hr⟩ := ih hmt
      refine ⟨r, ?_⟩
      have hfn : fieldName (c :: t) = c :: fieldName t := by
        simp [fieldName, List.takeWhile_cons, hc]
      rw [hfn]
      simpa using hr

/-- A case-insensitive field-name match extends over the colon. -/
theorem ciStarts_append_colon :
    ∀ (nm fn r : List Char), fn.length = nm.length → ciStarts nm fn = true →
      ciStarts (nm ++ [':']) (fn ++ ':' :: r) = true := by
  intro nm
  induction nm with
  | nil =>
    intro fn r hlen _
    have hfn : fn = [] := List.length_eq_zero.mp hlen
    subst hfn
    simp [ciStarts, ciChar]
  | cons a nm ih =>
    intro fn r hlen hci
    cases fn with
    | nil => simp at hlen
    | cons c t =>
      simp only [ciStarts, Bool.and_eq_true] at hci
      simp only [List.cons_append, ciStarts, Bool.and_eq_true]
      exact ⟨hci.1, ih t r (by simpa using hlen) hci.2⟩

/-- Two case-insensitive patterns with incompatible head characters cannot
both match. -/
theorem ciStarts_head_confl {a b : Char} (ps qs : List Char)
    (hab : ∀ c, ciChar a c = true → ciChar b c = false) :
    ∀ h, ciStarts (a :: ps) h = true → ciStarts (b :: qs) h = false := by
  intro h hci
  rcases ciStarts_head hci with ⟨c, t, rfl, hc, _⟩
  simp only [ciStarts]
  rw [hab c hc, Bool.false_and]

/-! ## Scanner lemmas -/

/-- The scanner result does not depend on the fuel, as long as the fuel is at
least the input length. -/
theorem subAllAux_fuel_irrel (m : Option Char → List Char → Option Nat)
    (v : List Char) :
    ∀ (n : Nat) (s : List Char), s.length ≤ n →
      ∀ (f1 f2 : Nat) (prev : Option Char), s.length ≤ f1 → s.length ≤ f2 →
        subAllAux m v f1 prev s = subAllAux m v f2 prev s := by
  intro n
  induction n with
  | zero =>
    intro s hs f1 f2 prev _ _
    have h0 : s = [] := List.length_eq_zero.mp (Nat.le_zero.mp hs)
    subst h0
    cases f1 <;> cases f2 <;> rfl
  | succ n ih =>
    intro s hs f1 f2 prev h1 h2
    cases s with
    | nil => cases f1 <;> cases f2 <;> rfl
    | cons c rest =>
      cases f1 with
      | zero => simp at h1
      | succ g1 =>
        cases f2 with
        | zero => simp at h2
        | succ g2 =>
          simp only [List.length_cons] at hs h1 h2
          simp only [subAllAux]
          cases hm : m prev (c :: rest) with
          | none =>
            rw [ih rest (by omega) g1 g2 (some c) (by omega) (by omega)]
          | some k =>
            by_cases hk : k = 0
            · subst hk
              simp only [reduceIte]
              rw [ih rest (by omega) g1 g2 (some c) (by omega) (by omega)]
            · simp only [if_neg hk]
              have hlen : (List.drop k (c :: rest)).length = rest.length + 1 - k := by
                simp
              have hk1 : 1 ≤ k := Nat.one_le_iff_ne_zero.mpr hk
              congr 1
              exact ih (List.drop k (c :: rest)) (by omega) g1 g2 _ (by omega) (by omega)

/-- Scanner fuel normalisation to the input length. -/
theorem subAllAux_fuel (m : Option Char → List Char → Option Nat)
    (v : List Char) (f : Nat) (prev : Option Char) (s : List Char)
    (h : s.length ≤ f) :
    subAllAux m v f prev s = subAllAux m v s.length prev s :=
  subAllAux_fuel_irrel m v f s h f s.length prev h (Nat.le_refl _)

/-- The hostname matcher has no boundary assertions, so the scanner's
previous-character argument is irrelevant for it. -/
theorem subAllAux_host_prev (d : List Char) (f : Nat) (p1 p2 : Option Char)
    (s : List Char) : subAllAux hostM d f p1 s = subAllAux hostM d f p2 s := by
  cases f with
  | zero => cases s <;> rfl
  | succ g => cases s <;> rfl

/-- A character outside the class that is not an opening bracket starts no
hostname match. -/
theorem hostMatchAt_none {c : Char} (s : List Char) (h1 : hostClass c = false)
    (h2 : c ≠ '[') : hostMatchAt (c :: s) = none := by
  simp [hostMatchAt, h1, h2]

/-- Skipping a non-matching character in the hostname pass. -/
theorem subAll_host_skip (d : List Char) (c : Char) (s : List Char)
    (h1 : hostClass c = false) (h2 : c ≠ '[') :
    subAll hostM d (c :: s) = c :: subAll hostM d s := by
  show subAllAux hostM d (c :: s).length none (c :: s) = _
  simp only [List.length_cons, subAllAux]
  have hm : hostM none (c :: s) = none := hostMatchAt_none s h1 h2
  rw [hm]
  exact congrArg (c :: ·) (subAllAux_host_prev d s.length (some c) none s)

/-- Computing `takeWhile` over a satisfying block followed by a stopping suffix. -/
theorem takeWhile_append_stop {p : Char → Bool} :
    ∀ (cs s : List Char), (∀ c ∈ cs, p c = true) →
      (match s with | [] => True | c :: _ => p c = false) →
      (cs ++ s).takeWhile p = cs := by
  intro cs
  induction cs with
  | nil =>
    intro s _ hstop
    cases s with
    | nil => rfl
    | cons c t => simp [List.takeWhile_cons, hstop]
  | cons c cs ih =>
    intro s hall hstop
    simp only [List.cons_append, List.takeWhile_cons, hall c (by simp), if_pos]
    rw [ih s (fun x hx => hall x (by simp [hx])) hstop]

/-- The hostname match at the start of a nonempty class run is the whole run
(no closing bracket following). -/
theorem hostMatchAt_run {c0 : Char} (cs s : List Char)
    (h0 : hostClass c0 = true) (hall : ∀ c ∈ cs, hostClass c = true)
    (hstop : match s with | [] => True | c :: _ => hostClass c = false ∧ c ≠ ']') :
    hostMatchAt (c0 :: (cs ++ s)) = some (cs.length + 1) := by
  have hnb : ¬ (c0 = '[') := by
    intro hh; rw [hh] at h0; exact absurd h0 (by decide)
  have ht : (c0 :: (cs ++ s)).takeWhile hostClass = c0 :: cs := by
    rw [show c0 :: (cs ++ s) = (c0 :: cs) ++ s from rfl]
    exact takeWhile_append_stop (c0 :: cs) s
      (by intro x hx
          rcases List.mem_cons.mp hx with rfl | hx
          · exact h0
          · exact hall x hx)
      (by cases s with
          | nil => trivial
          | cons c t => exact (hstop).1)
  have hdrop : (c0 :: (cs ++ s)).drop (cs.length + 1) = s := by
    simp [List.drop_left]
  have hnotbr : ((c0 :: (cs ++ s)).drop ((c0 :: (cs ++ s)).takeWhile hostClass).length).head? ≠ some ']' := by
    rw [ht]
    simp only [List.length_cons, hdrop]
    cases s with
    | nil => simp
    | cons c t =>
      simp only [List.head?_cons]
      exact fun hq => (hstop).2 (Option.some.inj hq)
  simp only [hostMatchAt, if_neg hnb, if_pos h0]
  rw [if_neg hnotbr, ht]
  simp

/-- Replacing a nonempty class run in the hostname pass. -/
theorem subAll_host_run (d : List Char) (cs s : List Char) (hne : cs ≠ [])
    (hall : ∀ c ∈ cs, hostClass c = true)
    (hstop : match s with | [] => True | c :: _ => hostClass c = false ∧ c ≠ ']') :
    subAll hostM d (cs ++ s) = d ++ subAll hostM d s := by
  cases cs with
  | nil => exact absurd rfl hne
  | cons c0 cs =>
    show subAllAux hostM d ((c0 :: cs) ++ s).length none ((c0 :: cs) ++ s) = _
    have hm : hostM none (c0 :: (cs ++ s)) = some (cs.length + 1) :=
      hostMatchAt_run cs s (hall c0 (by simp)) (fun x hx => hall x (by simp [hx])) hstop
    simp only [List.cons_append, List.append_eq, List.length_cons, subAllAux]
    simp only [hm]
    rw [if_neg (by omega : ¬ (cs.length + 1 = 0))]
    congr 1
    have hdrop : List.drop (cs.length + 1) (c0 :: (cs ++ s)) = s := by
      simp [List.drop_left]
    rw [hdrop]
    rw [subAllAux_host_prev d (cs ++ s).length _ none s]
    exact subAllAux_fuel hostM d (cs ++ s).length none s (by simp)

/-- Characters between `'0'` and `'1'` are digits. -/
theorem isDigit_of_between {c : Char} (h1 : '0' ≤ c) (h2 : c ≤ '1') :
    c.isDigit = true := by
  rw [Char.le_def] at h1 h2
  simp only [Char.isDigit, ge_iff_le, Bool.and_eq_true, decide_eq_true_eq]
  have h9 : ('1' : Char).val ≤ (57 : UInt32) := by decide
  exact ⟨h1, UInt32.le_trans h2 h9⟩

/-- The IPv4 octet group cannot match at a non-digit character. -/
theorem octetLens_not_digit {c : Char} (r : List Char) (h : c.isDigit = false) :
    octetLens (c :: r) = [] := by
  have h2 : ¬ (c = '2') := by
    rintro rfl
    exact absurd h (by decide)
  have h01 : inRange (some c) '0' '1' = false := by
    simp only [inRange]
    by_contra hx
    rw [Bool.not_eq_false, Bool.and_eq_true, decide_eq_true_eq, decide_eq_true_eq] at hx
    rw [isDigit_of_between hx.1 hx.2] at h
    exact absurd h (by decide)
  simp [octetLens, digitO, h, h2, h01]

/-- The IPv4 matcher fails at a non-digit character. -/
theorem ipv4M_not_digit {prev : Option Char} {c : Char} {r : List Char}
    (h : c.isDigit = false) : ipv4M prev (c :: r) = none := by
  have ht : ipTail 3 (c :: r) = none := by
    show ipTail (2 + 1) (c :: r) = none
    simp [ipTail, octetLens_not_digit r h]
  simp only [ipv4M]
  cases prev with
  | none => exact ht
  | some q =>
    by_cases hw : wordChar q = true
    · simp [hw]
    · simp [hw, ht]

/-- The IPv4 pass copies a non-digit character unchanged. -/
theorem subAllAux_ip_step (v : List Char) (prev : Option Char) (c : Char)
    (s : List Char) (h : c.isDigit = false) :
    subAllAux ipv4M v (c :: s).length prev (c :: s) =
      c :: subAllAux ipv4M v s.length (some c) s := by
  simp only [List.length_cons, subAllAux]
  simp only [ipv4M_not_digit h]

/-- Obfuscating a line that case-insensitively starts with `received:`
produces the synthetic domain followed by a colon: the IPv4 pass leaves the
(digit-free) field-name prefix alone, and the hostname pass then replaces the
whole `Received` token with `fake.domain_name()`. -/
theorem obfuscate_received_shape (p : Provider) (k : Nat) (h : List Char)
    (hci : ciStarts rcvdPat h = true) :
    ∃ tail, (obfuscateLine p k h).1 = p.fakeDomain (k + 1) ++ ':' :: tail := by
  have hciA : ciStarts ('r' :: s2l "eceived:") h = true := hci
  rcases ciStarts_head hciA with ⟨c0, t0, rfl, h0, hci0⟩
  have hciB : ciStarts ('e' :: s2l "ceived:") t0 = true := hci0
  rcases ciStarts_head hciB with ⟨c1, t1, rfl, h1, hci1⟩
  have hciC : ciStarts ('c' :: s2l "eived:") t1 = true := hci1
  rcases ciStarts_head hciC with ⟨c2, t2, rfl, h2, hci2⟩
  have hciD : ciStarts ('e' :: s2l "ived:") t2 = true := hci2
  rcases ciStarts_head hciD with ⟨c3, t3, rfl, h3, hci3⟩
  have hciE : ciStarts ('i' :: s2l "ved:") t3 = true := hci3
  rcases ciStarts_head hciE with ⟨c4, t4, rfl, h4, hci4⟩
  have hciF : ciStarts ('v' :: s2l "ed:") t4 = true := hci4
  rcases ciStarts_head hciF with ⟨c5, t5, rfl, h5, hci5⟩
  have hciG : ciStarts ('e' :: s2l "d:") t5 = true := hci5
  rcases ciStarts_head hciG with ⟨c6, t6, rfl, h6, hci6⟩
  have hciH : ciStarts ('d' :: s2l ":") t6 = true := hci6
  rcases ciStarts_head hciH with ⟨c7, t7, rfl, h7, hci7⟩
  have hciI : ciStarts (':' :: ([] : List Char)) t7 = true := hci7
  rcases ciStarts_head hciI with ⟨c8, t8, rfl, h8, _⟩
  have hc8 : c8 = ':' := ciChar_colon h8
  subst hc8
  have f0 := ciChar_facts h0 (by decide)
  have f1 := ciChar_facts h1 (by decide)
  have f2 := ciChar_facts h2 (by decide)
  have f3 := ciChar_facts h3 (by decide)
  have f4 := ciChar_facts h4 (by decide)
  have f5 := ciChar_facts h5 (by decide)
  have f6 := ciChar_facts h6 (by decide)
  have f7 := ciChar_facts h7 (by decide)
  have hp1 : subAll ipv4M (p.fakeIpv4 k)
      (c0 :: c1 :: c2 :: c3 :: c4 :: c5 :: c6 :: c7 :: ':' :: t8) =
      c0 :: c1 :: c2 :: c3 :: c4 :: c5 :: c6 :: c7 :: ':' ::
        subAllAux ipv4M (p.fakeIpv4 k) t8.length (some ':') t8 := by
    simp only [subAll]
    rw [subAllAux_ip_step _ _ _ _ f0.1, subAllAux_ip_step _ _ _ _ f1.1,
      subAllAux_ip_step _ _ _ _ f2.1, subAllAux_ip_step _ _ _ _ f3.1,
      subAllAux_ip_step _ _ _ _ f4.1, subAllAux_ip_step _ _ _ _ f5.1,
      subAllAux_ip_step _ _ _ _ f6.1, subAllAux_ip_step _ _ _ _ f7.1,
      subAllAux_ip_step _ _ _ _ (by decide : (':' : Char).isDigit = false)]
  set d := p.fakeDomain (k + 1) with hd
  set T1 := subAllAux ipv4M (p.fakeIpv4 k) t8.length (some ':') t8 with hT1
  have hallcs : ∀ c ∈ [c0, c1, c2, c3, c4, c5, c6, c7], hostClass c = true := by
    intro x hx
    simp only [List.mem_cons, List.not_mem_nil, or_false] at hx
    rcases hx with rfl | rfl | rfl | rfl | rfl | rfl | rfl | rfl
    exacts [f0.2.1, f1.2.1, f2.2.1, f3.2.1, f4.2.1, f5.2.1, f6.2.1, f7.2.1]
  have hp2 : subAll hostM d (c0 :: c1 :: c2 :: c3 :: c4 :: c5 :: c6 :: c7 :: ':' :: T1) =
      d ++ ':' :: subAll hostM d T1 := by
    have hrun := subAll_host_run d [c0, c1, c2, c3, c4, c5, c6, c7] (':' :: T1)
      (by simp) hallcs ⟨by decide, by decide⟩
    rw [show [c0, c1, c2, c3, c4, c5, c6, c7] ++ (':' :: T1) =
      c0 :: c1 :: c2 :: c3 :: c4 :: c5 :: c6 :: c7 :: ':' :: T1 from rfl] at hrun
    rw [hrun, subAll_host_skip d ':' T1 (by decide) (by decide)]
  refine ⟨subAll hostM d T1, ?_⟩
  simp only [obfuscateLine]
  rw [hp1, hp2]

/-- If `pat ++ [x]` prefixes `d ++ x :: tail` and `x` does not occur in
`pat`, then `pat` prefixes `d`. -/
theorem prefix_before_colon {x : Char} :
    ∀ (pat d tail : List Char), x ∉ pat →
      (pat ++ [x]) <+: (d ++ x :: tail) → pat <+: d := by
  intro pat
  induction pat with
  | nil => intro d tail _ _; exact List.nil_prefix
  | cons a pat ih =>
    intro d tail hx hpre
    cases d with
    | nil =>
      rw [List.nil_append] at hpre
      rw [List.cons_append] at hpre
      have := (List.cons_prefix_cons.mp hpre).1
      exact absurd (by simp [this]) hx
    | cons b d =>
      rw [List.cons_append] at hpre
      rw [List.cons_append] at hpre
      obtain ⟨hab, htail⟩ := List.cons_prefix_cons.mp hpre
      subst hab
      exact List.cons_prefix_cons.mpr ⟨rfl, ih d tail (fun hm => hx (by simp [hm])) htail⟩

/-- A literal `Received:` prefix implies the case-insensitive one. -/
theorem lit_to_ci {h : List Char} (hp : recvLit.isPrefixOf h = true) :
    ciStarts rcvdPat h = true := by
  have hpre : recvLit <+: h := List.isPrefixOf_iff_prefix.mp hp
  obtain ⟨rest, hrest⟩ := hpre
  rw [← hrest]
  rfl

/-- Lifting a conflict on lowercase pattern characters to all characters
matching the first. -/
theorem ciChar_confl {a b : Char}
    (hset : ∀ pr ∈ upPairs, pr.1 = a → ciChar b pr.2 = false)
    (hba : ciChar b a = false) :
    ∀ c, ciChar a c = true → ciChar b c = false := by
  intro c hc
  rcases ciChar_iff.mp hc with rfl | hm
  · exact hba
  · exact hset (a, c) hm rfl

/-- Two case-insensitive patterns whose third characters conflict cannot both
match. -/
theorem ciStarts_confl3 {a0 a1 a2 b0 b1 b2 : Char} (ps qs : List Char)
    (hab : ∀ c, ciChar a2 c = true → ciChar b2 c = false) :
    ∀ h, ciStarts (a0 :: a1 :: a2 :: ps) h = true →
      ciStarts (b0 :: b1 :: b2 :: qs) h = false := by
  intro h hci
  rcases ciStarts_head hci with ⟨c0, t0, rfl, _, hci0⟩
  rcases ciStarts_head hci0 with ⟨c1, t1, rfl, _, hci1⟩
  rcases ciStarts_head hci1 with ⟨c2, t2, rfl, hc2, _⟩
  simp only [ciStarts]
  rw [hab c2 hc2]
  simp

/-! ## Classifier lemmas -/

/-- No output line of the rewriter starts with the literal `Received:`, either
because Received headers are dropped, or (when obfuscated) because no
synthetic domain starts with `Received`. -/
theorem rewriteOne_no_recvLit (cfg : Config) (p : Provider)
    (hcase : cfg.obfuscateReceived = false ∨ ∀ i, ¬ recvName <+: p.fakeDomain i) :
    ∀ (k : Nat) (h l : List Char), l ∈ (rewriteOne cfg p k h).1 →
      recvLit.isPrefixOf l = false := by
  intro k h l hl
  by_cases hrc : ciStarts rcvdPat h = true
  · simp only [rewriteOne, if_pos hrc] at hl
    cases hob : cfg.obfuscateReceived with
    | false => rw [hob] at hl; simp at hl
    | true =>
      rw [hob] at hl
      simp at hl
      subst hl
      rcases hcase with hc | hdom
      · rw [hob] at hc; exact absurd hc (by simp)
      · obtain ⟨tail, htail⟩ := obfuscate_received_shape p k h hrc
        rw [htail]
        by_contra hx
        rw [Bool.not_eq_false] at hx
        have hpre : recvLit <+: p.fakeDomain (k + 1) ++ ':' :: tail :=
          List.isPrefixOf_iff_prefix.mp hx
        exact hdom (k + 1)
          (prefix_before_colon recvName (p.fakeDomain (k + 1)) tail (by decide) hpre)
  · have hlit : ∀ x : List Char, x = h → recvLit.isPrefixOf x = false := by
      rintro x rfl
      by_contra hx
      rw [Bool.not_eq_false] at hx
      exact hrc (lit_to_ci hx)
    simp only [rewriteOne, if_neg hrc] at hl
    by_cases h1 : ciStarts xmlrPat h = true
    · simp only [if_pos h1] at hl
      cases hkx : cfg.keepXMailer with
      | false => rw [hkx] at hl; simp at hl
      | true =>
        rw [hkx] at hl
        simp at hl
        exact hlit l hl
    · simp only [if_neg h1] at hl
      by_cases h2 : ciStarts msgidPat h = true
      · simp only [if_pos h2, List.mem_singleton] at hl
        subst hl; rfl
      · simp only [if_neg h2] at hl
        by_cases h3 : ciStarts datePat h = true
        · simp only [if_pos h3, List.mem_singleton] at hl
          subst hl; rfl
        · simp only [if_neg h3] at hl
          by_cases h4 : ciStarts fromPat h = true
          · simp only [if_pos h4, List.mem_singleton] at hl
            subst hl; rfl
          · simp only [if_neg h4] at hl
            by_cases h5 : ciStarts toPat h = true
            · simp only [if_pos h5, List.mem_singleton] at hl
              subst hl; rfl
            · simp only [if_neg h5] at hl
              by_cases h6 : ciStarts rplyPat h = true
              · simp only [if_pos h6, List.mem_singleton] at hl
                subst hl; rfl
              · simp only [if_neg h6, List.mem_singleton] at hl
                exact hlit l hl

/-- If no single-record output line satisfies a predicate, no line of the
whole header loop does. -/
theorem anonymizeHeaders_countP_zero (cfg : Config) (p : Provider)
    (pred : List Char → Bool)
    (hrec : ∀ (k : Nat) (h l : List Char), l ∈ (rewriteOne cfg p k h).1 → pred l = false) :
    ∀ (hs : List (List Char)) (k : Nat),
      ((anonymizeHeaders cfg p k hs).1.countP pred) = 0 := by
  intro hs
  induction hs with
  | nil => intro k; rfl
  | cons h t ih =>
    intro k
    simp only [anonymizeHeaders, List.countP_append]
    rw [ih]
    have h0 : ∀ l ∈ (rewriteOne cfg p k h).1, ¬ pred l = true := by
      intro l hl
      rw [hrec k h l hl]
      simp
    rw [List.countP_eq_zero.mpr h0]

/-- The number of lines a record produces does not depend on the provider
counter. -/
theorem rewriteOne_length_k (cfg : Config) (p : Provider) (k1 k2 : Nat)
    (h : List Char) :
    (rewriteOne cfg p k1 h).1.length = (rewriteOne cfg p k2 h).1.length := by
  simp only [rewriteOne]
  split_ifs <;> rfl

/-- The number of output lines of the header loop does not depend on the
provider counter. -/
theorem anonymizeHeaders_length_k (cfg : Config) (p : Provider) :
    ∀ (hs : List (List Char)) (k1 k2 : Nat),
      (anonymizeHeaders cfg p k1 hs).1.length = (anonymizeHeaders cfg p k2 hs).1.length := by
  intro hs
  induction hs with
  | nil => intro k1 k2; rfl
  | cons h t ih =>
    intro k1 k2
    simp only [anonymizeHeaders, List.length_append]
    rw [rewriteOne_length_k cfg p k1 k2 h, ih (rewriteOne cfg p k1 h).2 (rewriteOne cfg p k2 h).2]

/-- On a non-Received record the Received policy flag is irrelevant. -/
theorem rewriteOne_cfg_eq (b : Bool) (p : Provider) (k : Nat) (h : List Char)
    (hrc : ciStarts rcvdPat h = false) :
    rewriteOne ⟨b, true⟩ p k h = rewriteOne ⟨b, false⟩ p k h := by
  simp [rewriteOne, hrc]

/-- With obfuscation on, each Received header contributes exactly one extra
output line relative to the dropping configuration. -/
theorem anonymizeHeaders_length_tf (b : Bool) (p : Provider) :
    ∀ (hs : List (List Char)) (k : Nat),
      (anonymizeHeaders ⟨b, true⟩ p k hs).1.length =
        (anonymizeHeaders ⟨b, false⟩ p k hs).1.length +
          (hs.countP fun x => ciStarts rcvdPat x) := by
  intro hs
  induction hs with
  | nil => intro k; rfl
  | cons h t ih =>
    intro k
    simp only [anonymizeHeaders, List.length_append, List.countP_cons]
    by_cases hrc : ciStarts rcvdPat h = true
    · have e1 : rewriteOne ⟨b, true⟩ p k h = ([(obfuscateLine p k h).1], k + 2) := by
        simp [rewriteOne, hrc, obfuscateLine]
      have e2 : rewriteOne ⟨b, false⟩ p k h = ([], k) := by
        simp [rewriteOne, hrc]
      rw [e1, e2]
      simp only [List.length_singleton, List.length_nil, hrc, reduceIte]
      rw [ih (k + 2), anonymizeHeaders_length_k ⟨b, false⟩ p t (k + 2) k]
      omega
    · have hrc0 : ciStarts rcvdPat h = false := by simpa using hrc
      rw [rewriteOne_cfg_eq b p k h hrc0]
      simp only [hrc0, Bool.false_eq_true, if_false]
      rw [ih (rewriteOne ⟨b, false⟩ p k h).2]
      omega

/-- A record whose field name is unknown passes through unchanged, consuming
no synthetic values. -/
theorem rewriteOne_unknown (cfg : Config) (p : Provider) (k : Nat)
    (h : List Char) (hu : ∀ nm ∈ knownNames, ¬ fieldNameIs nm h) :
    rewriteOne cfg p k h = ([h], k) := by
  have mk0 : ∀ (nm : List Char), nm ∈ knownNames → (∀ a ∈ nm, a ≠ ':') →
      ciStarts (nm ++ [':']) h = false := by
    intro nm hmem hcol
    by_contra hx
    rw [Bool.not_eq_false] at hx
    exact hu nm hmem (fieldNameIs_of_ciStarts nm h hcol hx)
  have k1 : ciStarts rcvdPat h = false :=
    mk0 (s2l "received") (by simp [knownNames]) (by decide)
  have k2 : ciStarts xmlrPat h = false :=
    mk0 (s2l "x-mailer") (by simp [knownNames]) (by decide)
  have k3 : ciStarts msgidPat h = false :=
    mk0 (s2l "message-id") (by simp [knownNames]) (by decide)
  have k4 : ciStarts datePat h = false :=
    mk0 (s2l "date") (by simp [knownNames]) (by decide)
  have k5 : ciStarts fromPat h = false :=
    mk0 (s2l "from") (by simp [knownNames]) (by decide)
  have k6 : ciStarts toPat h = false :=
    mk0 (s2l "to") (by simp [knownNames]) (by decide)
  have k7 : ciStarts rplyPat h = false :=
    mk0 (s2l "reply-to") (by simp [knownNames]) (by decide)
  simp [rewriteOne, k1, k2, k3, k4, k5, k6, k7]

/-- Inversion of the splitter: a successful split cuts the text at the first
occurrence of the chosen marker, and the bare variant is preferred whenever it
occurs. -/
theorem splitMessage_inv {t hp m b : List Char}
    (hsp : splitMessage t = some (hp, m, b)) :
    t = hp ++ m ++ b ∧ (∀ i, i < hp.length → ¬ m <+: t.drop i) ∧
      (m = lflf ∨ (m = crlfcrlf ∧ containsSub lflf t = false)) := by
  unfold splitMessage at hsp
  by_cases h1 : containsSub lflf t = true
  · rw [if_pos h1] at hsp
    obtain ⟨r, hr, heq⟩ := Option.map_eq_some'.mp hsp
    obtain ⟨hhp, hm, hb⟩ : r.1 = hp ∧ lflf = m ∧ r.2 = b := by simpa using heq
    subst hhp; subst hb
    cases hm
    exact ⟨splitFirst_append lflf t r.1 r.2 hr,
      splitFirst_first lflf t r.1 r.2 hr, Or.inl rfl⟩
  · rw [if_neg h1] at hsp
    by_cases h2 : containsSub crlfcrlf t = true
    · rw [if_pos h2] at hsp
      obtain ⟨r, hr, heq⟩ := Option.map_eq_some'.mp hsp
      obtain ⟨hhp, hm, hb⟩ : r.1 = hp ∧ crlfcrlf = m ∧ r.2 = b := by simpa using heq
      subst hhp; subst hb
      cases hm
      exact ⟨splitFirst_append crlfcrlf t r.1 r.2 hr,
        splitFirst_first crlfcrlf t r.1 r.2 hr,
        Or.inr ⟨rfl, by simpa using h1⟩⟩
    · rw [if_neg h2] at hsp
      simp at hsp

/-- Splitting the literal `From: ` prefix. -/
theorem s2l_split_from : s2l "From: " = s2l "From" ++ s2l ": " := rfl

/-- Splitting the literal `To: ` prefix. -/
theorem s2l_split_to : s2l "To: " = s2l "To" ++ s2l ": " := rfl

/-- Splitting the literal `Reply-To: ` prefix. -/
theorem s2l_split_reply : s2l "Reply-To: " = s2l "Reply-To" ++ s2l ": " := rfl

/-- The literal ` <` prefix as conses. -/
theorem s2l_angle (X : List Char) : s2l " <" ++ X = ' ' :: '<' :: X := rfl

/-! ## The claims -/

/-- C3 (amended): the tokenizer emits one record per physical line,
continuation lines included; a whitespace-led line, not matching any known
header name, is passed through verbatim by the classifier as its own record,
consuming no synthetic values. -/
theorem c3_whitespace_line_kept (cfg : Config) (p : Provider) (k : Nat)
    (l : List Char) (hws : startsWS l = true) :
    rewriteOne cfg p k l = ([l], k) := by
  cases l with
  | nil => simp [startsWS] at hws
  | cons c t =>
    simp only [startsWS, Bool.or_eq_true, beq_iff_eq] at hws
    have hf : ∀ a ∈ ['r', 'x', 'm', 'd', 'f', 't'], ciChar a c = false := by
      rcases hws with rfl | rfl <;> decide
    have mk : ∀ (a : Char) (ps : List Char), ciChar a c = false →
        ciStarts (a :: ps) (c :: t) = false := by
      intro a ps hac
      simp only [ciStarts]
      rw [hac, Bool.false_and]
    have q1 : ciStarts rcvdPat (c :: t) = false := mk 'r' (s2l "eceived:") (hf 'r' (by simp))
    have q2 : ciStarts xmlrPat (c :: t) = false := mk 'x' (s2l "-mailer:") (hf 'x' (by simp))
    have q3 : ciStarts msgidPat (c :: t) = false := mk 'm' (s2l "essage-id:") (hf 'm' (by simp))
    have q4 : ciStarts datePat (c :: t) = false := mk 'd' (s2l "ate:") (hf 'd' (by simp))
    have q5 : ciStarts fromPat (c :: t) = false := mk 'f' (s2l "rom:") (hf 'f' (by simp))
    have q6 : ciStarts toPat (c :: t) = false := mk 't' (s2l "o:") (hf 't' (by simp))
    have q7 : ciStarts rplyPat (c :: t) = false := mk 'r' (s2l "eply-to:") (hf 'r' (by simp))
    simp [rewriteOne, q1, q2, q3, q4, q5, q6, q7]

/-- C3 witness: a concrete continuation line passes through unchanged. -/
theorem c3_whitespace_line_kept_witness :
    startsWS (s2l " by relay.test (10.0.0.5)") = true ∧
      rewriteOne ⟨false, false⟩ provC 0 (s2l " by relay.test (10.0.0.5)") =
        ([s2l " by relay.test (10.0.0.5)"], 0) :=
  ⟨by decide, c3_whitespace_line_kept ⟨false, false⟩ provC 0 _ (by decide)⟩

/-- C4 (amended): on an input without either boundary marker the program
reports the error path and writes no output, but exits with status zero, not
a non-zero status. -/
theorem c4_no_boundary_no_output (cfg : Config) (p : Provider) (t : List Char)
    (h1 : containsSub lflf t = false) (h2 : containsSub crlfcrlf t = false) :
    runProgram true cfg p t = (0, none) := by
  simp [runProgram, anonymizeEmail, splitMessage, h1, h2]

/-- C4 witness: a concrete boundary-free input. -/
theorem c4_no_boundary_no_output_witness :
    containsSub lflf (s2l "just one line") = false ∧
      containsSub crlfcrlf (s2l "just one line") = false ∧
      runProgram true ⟨false, false⟩ provC (s2l "just one line") = (0, none) :=
  ⟨by decide, by decide,
    c4_no_boundary_no_output ⟨false, false⟩ provC _ (by decide) (by decide)⟩

/-- C5 (amended): on every message with a recognised boundary, splitting and
reassembling with all headers passed through preserves the boundary marker
and the body verbatim, and rejoins the header block's physical lines with
`\n`; when the header block's only line breaks are inner bare `\n`s, the
whole transform is the identity. -/
theorem c5_split_assemble (t hp m b : List Char)
    (hsp : splitMessage t = some (hp, m, b)) :
    t = hp ++ m ++ b ∧
      identityAssemble t = some (assemble (tokenize hp) m b) ∧
      ((∀ c ∈ hp, isLineBreak c = true → c = '\n') → hp.getLast? ≠ some '\n' →
        identityAssemble t = some t) := by
  obtain ⟨ht, _, _⟩ := splitMessage_inv hsp
  refine ⟨ht, by simp [identityAssemble, hsp], ?_⟩
  intro hall hlast
  simp only [identityAssemble, hsp]
  rw [show assemble (tokenize hp) m b = joinLF (splitlines hp) ++ m ++ b from rfl]
  rw [joinLF_splitlines hp hall hlast]
  exact congrArg some ht.symm

/-- C5 witness: a concrete LF message on which the transform is the identity. -/
theorem c5_split_assemble_witness :
    identityAssemble (s2l "X-A: x\nX-B: y\n\nbody") =
      some (s2l "X-A: x\nX-B: y\n\nbody") :=
  (c5_split_assemble (s2l "X-A: x\nX-B: y\n\nbody") (s2l "X-A: x\nX-B: y")
    lflf (s2l "body") (by decide)).2.2 (by decide) (by decide)

/-- C6 (amended): the splitter prefers the bare `\n\n` variant; the
carriage-return-qualified variant is chosen only when `\n\n` does not occur.
The text is cut at the first occurrence of the chosen marker, whose literal
text reappears verbatim between the rewritten headers and the body. -/
theorem c6_marker_choice (t hp m b : List Char)
    (hsp : splitMessage t = some (hp, m, b)) :
    t = hp ++ m ++ b ∧
      (∀ i, i < hp.length → ¬ m <+: t.drop i) ∧
      (m = lflf ∨ (m = crlfcrlf ∧ containsSub lflf t = false)) ∧
      (∀ (cfg : Config) (p : Provider), ∃ ls,
        anonymizeEmail cfg p t = some (joinLF ls ++ m ++ b)) := by
  obtain ⟨h1, h2, h3⟩ := splitMessage_inv hsp
  refine ⟨h1, h2, h3, ?_⟩
  intro cfg p
  exact ⟨(anonymizeHeaders cfg p 0 (tokenize hp)).1, by simp [anonymizeEmail, hsp, assemble]⟩

/-- C6 witness: a concrete CRLF-only message, for which the carriage-return
variant is chosen. -/
theorem c6_marker_choice_witness :
    s2l "A: x\r\n\r\nbody" = s2l "A: x" ++ crlfcrlf ++ s2l "body" :=
  (c6_marker_choice (s2l "A: x\r\n\r\nbody") (s2l "A: x") crlfcrlf (s2l "body")
    (by decide)).1

/-- C7 (amended): with `obfuscateReceived = false` no output line begins with
`Received:`; with `obfuscateReceived = true` each input Received header
contributes exactly one output line, but that line begins with the synthetic
domain rather than `Received:`, so (for providers whose domains do not begin
with `Received`) the count of `Received:`-prefixed output lines is still
zero rather than the count of input Received headers. -/
theorem c7_received_lines (b : Bool) (p : Provider) (k : Nat)
    (hs : List (List Char)) :
    (((anonymizeHeaders ⟨b, false⟩ p k hs).1.countP fun l => recvLit.isPrefixOf l) = 0) ∧
      ((∀ i, ¬ recvName <+: p.fakeDomain i) →
        ((anonymizeHeaders ⟨b, true⟩ p k hs).1.countP fun l => recvLit.isPrefixOf l) = 0) ∧
      ((anonymizeHeaders ⟨b, true⟩ p k hs).1.length =
        (anonymizeHeaders ⟨b, false⟩ p k hs).1.length +
          (hs.countP fun x => ciStarts rcvdPat x)) := by
  refine ⟨?_, ?_, anonymizeHeaders_length_tf b p hs k⟩
  · exact anonymizeHeaders_countP_zero _ p _ (rewriteOne_no_recvLit _ p (Or.inl rfl)) hs k
  · intro hdom
    exact anonymizeHeaders_countP_zero _ p _ (rewriteOne_no_recvLit _ p (Or.inr hdom)) hs k

/-- C7 witness: concrete headers under the concrete provider. -/
theorem c7_received_lines_witness :
    ((anonymizeHeaders ⟨false, true⟩ provC 0
        [s2l "Received: from a.b (1.2.3.4)", s2l "X-K: v"]).1.countP
      fun l => recvLit.isPrefixOf l) = 0 :=
  (c7_received_lines false provC 0
    [s2l "Received: from a.b (1.2.3.4)", s2l "X-K: v"]).2.1
    (by intro i; show ¬ recvName <+: s2l "example.org"; decide)

/-- C8 (confirmed): a header whose field name (the part before the first
colon, case-insensitively) is not in the known table is emitted unchanged,
exactly between the outputs of the records before and after it. -/
theorem c8_unknown_header_preserved (cfg : Config) (p : Provider) (k : Nat)
    (pre post : List (List Char)) (h : List Char)
    (hu : ∀ nm ∈ knownNames, ¬ fieldNameIs nm h) :
    (anonymizeHeaders cfg p k (pre ++ h :: post)).1 =
      (anonymizeHeaders cfg p k pre).1 ++
        h :: (anonymizeHeaders cfg p (anonymizeHeaders cfg p k pre).2 post).1 := by
  induction pre generalizing k with
  | nil =>
    simp only [List.nil_append, anonymizeHeaders, rewriteOne_unknown cfg p k h hu]
    simp [anonymizeHeaders]
  | cons q pre ih =>
    simp only [List.cons_append, List.append_eq, anonymizeHeaders]
    rw [ih]
    simp [List.append_assoc]

/-- C8 witness: a concrete unknown header between two known ones. -/
theorem c8_unknown_header_preserved_witness :
    (anonymizeHeaders ⟨false, false⟩ provC 0
        ([s2l "From: real@real.com"] ++ s2l "X-Custom: q" :: [s2l "Date: today"])).1 =
      (anonymizeHeaders ⟨false, false⟩ provC 0 [s2l "From: real@real.com"]).1 ++
        s2l "X-Custom: q" ::
          (anonymizeHeaders ⟨false, false⟩ provC
            (anonymizeHeaders ⟨false, false⟩ provC 0 [s2l "From: real@real.com"]).2
            [s2l "Date: today"]).1 :=
  c8_unknown_header_preserved ⟨false, false⟩ provC 0 _ _ _ (by decide)

/-- C9 (confirmed): a header whose field name is From, To or Reply-To
(case-insensitively) is rewritten to `<FieldName>: <name> <<email>>` bearing
that same field name in canonical case — a From header yields a `From: ` line,
a To header a `To: ` line, a Reply-To header a `Reply-To: ` line — with the
angle-bracketed part the provider's email value, which contains `@` whenever
the provider's email does. -/
theorem c9_sender_rewrite (cfg : Config) (p : Provider) (k : Nat)
    (h : List Char) (hcol : ':' ∈ h)
    (hat : '@' ∈ p.fakeEmail (k + 1)) :
    (fieldNameIs (s2l "from") h →
      rewriteOne cfg p k h =
        ([s2l "From" ++ s2l ": " ++ p.fakeName k ++ s2l " <" ++ p.fakeEmail (k + 1) ++ ['>']],
          k + 2)) ∧
    (fieldNameIs (s2l "to") h →
      rewriteOne cfg p k h =
        ([s2l "To" ++ s2l ": " ++ p.fakeName k ++ s2l " <" ++ p.fakeEmail (k + 1) ++ ['>']],
          k + 2)) ∧
    (fieldNameIs (s2l "reply-to") h →
      rewriteOne cfg p k h =
        ([s2l "Reply-To" ++ s2l ": " ++ p.fakeName k ++ s2l " <" ++ p.fakeEmail (k + 1) ++ ['>']],
          k + 2)) ∧
    '@' ∈ p.fakeEmail (k + 1) := by
  obtain ⟨r, hr⟩ := fieldName_colon_split h hcol
  refine ⟨fun hf => ?_, fun hf => ?_, fun hf => ?_, hat⟩
  · have hciF : ciStarts fromPat h = true := by
      have hq := ciStarts_append_colon (s2l "from") (fieldName h) r hf.1 hf.2
      rw [← hr] at hq
      exact hq
    have q1 : ciStarts rcvdPat h = false :=
      ciStarts_head_confl (s2l "rom:") (s2l "eceived:")
        (ciChar_confl (by decide) (by decide)) h hciF
    have q2 : ciStarts xmlrPat h = false :=
      ciStarts_head_confl (s2l "rom:") (s2l "-mailer:")
        (ciChar_confl (by decide) (by decide)) h hciF
    have q3 : ciStarts msgidPat h = false :=
      ciStarts_head_confl (s2l "rom:") (s2l "essage-id:")
        (ciChar_confl (by decide) (by decide)) h hciF
    have q4 : ciStarts datePat h = false :=
      ciStarts_head_confl (s2l "rom:") (s2l "ate:")
        (ciChar_confl (by decide) (by decide)) h hciF
    have he : rewriteOne cfg p k h =
        ([s2l "From: " ++ p.fakeName k ++ ' ' :: '<' :: p.fakeEmail (k + 1) ++ ['>']],
          k + 2) := by
      simp [rewriteOne, q1, q2, q3, q4, hciF]
    rw [he, s2l_split_from]
    simp only [List.append_assoc, List.cons_append, s2l_angle]
  · have hciT : ciStarts toPat h = true := by
      have hq := ciStarts_append_colon (s2l "to") (fieldName h) r hf.1 hf.2
      rw [← hr] at hq
      exact hq
    have q1 : ciStarts rcvdPat h = false :=
      ciStarts_head_confl (s2l "o:") (s2l "eceived:")
        (ciChar_confl (by decide) (by decide)) h hciT
    have q2 : ciStarts xmlrPat h = false :=
      ciStarts_head_confl (s2l "o:") (s2l "-mailer:")
        (ciChar_confl (by decide) (by decide)) h hciT
    have q3 : ciStarts msgidPat h = false :=
      ciStarts_head_confl (s2l "o:") (s2l "essage-id:")
        (ciChar_confl (by decide) (by decide)) h hciT
    have q4 : ciStarts datePat h = false :=
      ciStarts_head_confl (s2l "o:") (s2l "ate:")
        (ciChar_confl (by decide) (by decide)) h hciT
    have q5 : ciStarts fromPat h = false :=
      ciStarts_head_confl (s2l "o:") (s2l "rom:")
        (ciChar_confl (by decide) (by decide)) h hciT
    have he : rewriteOne cfg p k h =
        ([s2l "To: " ++ p.fakeName k ++ ' ' :: '<' :: p.fakeEmail (k + 1) ++ ['>']],
          k + 2) := by
      simp [rewriteOne, q1, q2, q3, q4, q5, hciT]
    rw [he, s2l_split_to]
    simp only [List.append_assoc, List.cons_append, s2l_angle]
  · have hciR : ciStarts rplyPat h = true := by
      have hq := ciStarts_append_colon (s2l "reply-to") (fieldName h) r hf.1 hf.2
      rw [← hr] at hq
      exact hq
    have q1 : ciStarts rcvdPat h = false :=
      ciStarts_confl3 (s2l "ly-to:") (s2l "eived:")
        (ciChar_confl (by decide) (by decide)) h hciR
    have q2 : ciStarts xmlrPat h = false :=
      ciStarts_head_confl (s2l "eply-to:") (s2l "-mailer:")
        (ciChar_confl (by decide) (by decide)) h hciR
    have q3 : ciStarts msgidPat h = false :=
      ciStarts_head_confl (s2l "eply-to:") (s2l "essage-id:")
        (ciChar_confl (by decide) (by decide)) h hciR
    have q4 : ciStarts datePat h = false :=
      ciStarts_head_confl (s2l "eply-to:") (s2l "ate:")
        (ciChar_confl (by decide) (by decide)) h hciR
    have q5 : ciStarts fromPat h = false :=
      ciStarts_head_confl (s2l "eply-to:") (s2l "rom:")
        (ciChar_confl (by decide) (by decide)) h hciR
    have q6 : ciStarts toPat h = false :=
      ciStarts_head_confl (s2l "eply-to:") (s2l "o:")
        (ciChar_confl (by decide) (by decide)) h hciR
    have he : rewriteOne cfg p k h =
        ([s2l "Reply-To: " ++ p.fakeName k ++ ' ' :: '<' :: p.fakeEmail (k + 1) ++ ['>']],
          k + 2) := by
      simp [rewriteOne, q1, q2, q3, q4, q5, q6, hciR]
    rw [he, s2l_split_reply]
    simp only [List.append_assoc, List.cons_append, s2l_angle]

/-- C9 witness: a concrete `To` header keeps its own field name. -/
theorem c9_sender_rewrite_witness :
    rewriteOne ⟨false, false⟩ provC 0 (s2l "To: real@real.com") =
      ([s2l "To" ++ s2l ": " ++ provC.fakeName 0 ++ s2l " <" ++ provC.fakeEmail 1 ++ ['>']],
        2) ∧
    '@' ∈ provC.fakeEmail 1 :=
  ⟨(c9_sender_rewrite ⟨false, false⟩ provC 0 (s2l "To: real@real.com")
      (by decide) (by decide)).2.1 (by decide),
    (c9_sender_rewrite ⟨false, false⟩ provC 0 (s2l "To: real@real.com")
      (by decide) (by decide)).2.2.2⟩

/-- C2 (amended): the IPv4 pass replaces every strict-grammar IPv4 match, but
with a single per-line synthetic value — the constant-replacement pass equals
the per-match substitution drawing the same value at every match.  Octets
greater than 255 are rejected, and a line's IPv4 matches are exactly
substituted around the untouched remainder. -/
theorem c2_ipv4_pass_single_value (p : Provider) (k : Nat) (line : List Char) :
    (subAll ipv4M (p.fakeIpv4 k) line =
        (subPerMatch ipv4M (fun _ => p.fakeIpv4 k) 0 line).1) ∧
      (∀ v : List Char, subAll ipv4M v (s2l "a 256.1.2.3 b") = s2l "a 256.1.2.3 b") ∧
      (∀ v : List Char, subAll ipv4M v (s2l "a 255.254.0.1 b") = s2l "a " ++ v ++ s2l " b") :=
  ⟨subAll_eq_perMatch ipv4M (p.fakeIpv4 k) line 0, fun _ => rfl, fun _ => rfl⟩

/-- C10 (confirmed): obfuscating one Received line invokes the provider
exactly once for the IPv4 pass and once for the hostname pass — the counter
advances by exactly two however many matches there are — and every IPv4 match
receives the identical synthetic IPv4 while every hostname match receives
the identical synthetic domain. -/
theorem c10_one_draw_per_pass (p : Provider) (k : Nat) (line : List Char) :
    obfuscateLine p k line =
      ((subPerMatch hostM (fun _ => p.fakeDomain (k + 1)) 0
          ((subPerMatch ipv4M (fun _ => p.fakeIpv4 k) 0 line).1)).1, k + 2) := by
  simp only [obfuscateLine]
  rw [← subAll_eq_perMatch, ← subAll_eq_perMatch]

/-- Replacing a nonempty class run followed by a stopping character. -/
theorem subAll_host_run_cons (d cs : List Char) (c : Char) (s : List Char)
    (hne : cs ≠ []) (hall : ∀ x ∈ cs, hostClass x = true)
    (h1 : hostClass c = false) (h2 : c ≠ ']') :
    subAll hostM d (cs ++ c :: s) = d ++ subAll hostM d (c :: s) :=
  subAll_host_run d cs (c :: s) hne hall ⟨h1, h2⟩

set_option maxHeartbeats 2000000

/-- C1 (amended): on the specification's trace line, with a dotted-quad
synthetic IPv4, the obfuscation replaces both IPv4 occurrences and every
hostname-like token — including the `Received` field name itself and the
freshly inserted IPv4s — with the synthetic domain; the resulting line is
`<dom>: <dom> <dom> (<dom>) <dom> <dom> (<dom>)` and hence does not begin
with `Received:` (for domains not beginning with `Received`). -/
theorem c1_trace_obfuscation (p : Provider) (k : Nat)
    (hne : p.fakeIpv4 k ≠ [])
    (hcl : ∀ c ∈ p.fakeIpv4 k, hostClass c = true) :
    ((obfuscateLine p k traceLineC).1 =
      p.fakeDomain (k + 1) ++ ':' :: ' ' ::
        (p.fakeDomain (k + 1) ++ ' ' ::
          (p.fakeDomain (k + 1) ++ ' ' :: '(' ::
            (p.fakeDomain (k + 1) ++ ')' :: ' ' ::
              (p.fakeDomain (k + 1) ++ ' ' ::
                (p.fakeDomain (k + 1) ++ ' ' :: '(' ::
                  (p.fakeDomain (k + 1) ++ ')' :: []))))))) ∧
    (¬ recvName <+: p.fakeDomain (k + 1) →
      recvLit.isPrefixOf (obfuscateLine p k traceLineC).1 = false) := by
  have hp1 : subAll ipv4M (p.fakeIpv4 k) traceLineC =
      s2l "Received" ++ ':' :: ' ' ::
        (s2l "from" ++ ' ' ::
          (s2l "mail.example.com" ++ ' ' :: '(' ::
            (p.fakeIpv4 k ++ ')' :: ' ' ::
              (s2l "by" ++ ' ' ::
                (s2l "relay.test" ++ ' ' :: '(' ::
                  (p.fakeIpv4 k ++ ')' :: [])))))) := by
    rfl
  have hshape : (obfuscateLine p k traceLineC).1 =
      p.fakeDomain (k + 1) ++ ':' :: ' ' ::
        (p.fakeDomain (k + 1) ++ ' ' ::
          (p.fakeDomain (k + 1) ++ ' ' :: '(' ::
            (p.fakeDomain (k + 1) ++ ')' :: ' ' ::
              (p.fakeDomain (k + 1) ++ ' ' ::
                (p.fakeDomain (k + 1) ++ ' ' :: '(' ::
                  (p.fakeDomain (k + 1) ++ ')' :: [])))))) := by
    show subAll hostM (p.fakeDomain (k + 1)) (subAll ipv4M (p.fakeIpv4 k) traceLineC) = _
    rw [hp1]
    rw [subAll_host_run_cons _ (s2l "Received") ':' _ (by decide) (by decide) (by decide) (by decide)]
    rw [subAll_host_skip _ ':' _ (by decide) (by decide)]
    rw [subAll_host_skip _ ' ' _ (by decide) (by decide)]
    rw [subAll_host_run_cons _ (s2l "from") ' ' _ (by decide) (by decide) (by decide) (by decide)]
    rw [subAll_host_skip _ ' ' _ (by decide) (by decide)]
    rw [subAll_host_run_cons _ (s2l "mail.example.com") ' ' _ (by decide) (by decide)
      (by decide) (by decide)]
    rw [subAll_host_skip _ ' ' _ (by decide) (by decide)]
    rw [subAll_host_skip _ '(' _ (by decide) (by decide)]
    rw [subAll_host_run_cons _ (p.fakeIpv4 k) ')' _ hne hcl (by decide) (by decide)]
    rw [subAll_host_skip _ ')' _ (by decide) (by decide)]
    rw [subAll_host_skip _ ' ' _ (by decide) (by decide)]
    rw [subAll_host_run_cons _ (s2l "by") ' ' _ (by decide) (by decide) (by decide) (by decide)]
    rw [subAll_host_skip _ ' ' _ (by decide) (by decide)]
    rw [subAll_host_run_cons _ (s2l "relay.test") ' ' _ (by decide) (by decide)
      (by decide) (by decide)]
    rw [subAll_host_skip _ ' ' _ (by decide) (by decide)]
    rw [subAll_host_skip _ '(' _ (by decide) (by decide)]
    rw [subAll_host_run_cons _ (p.fakeIpv4 k) ')' _ hne hcl (by decide) (by decide)]
    rw [subAll_host_skip _ ')' _ (by decide) (by decide)]
    rfl
  refine ⟨hshape, ?_⟩
  intro hnd
  rw [hshape]
  by_contra hx
  rw [Bool.not_eq_false] at hx
  have hpre := List.isPrefixOf_iff_prefix.mp hx
  exact hnd (prefix_before_colon recvName (p.fakeDomain (k + 1)) _ (by decide) hpre)

/-- C1 witness: the concrete provider realises the amended shape. -/
theorem c1_trace_obfuscation_witness :
    (obfuscateLine provC 0 traceLineC).1 =
      provC.fakeDomain 1 ++ ':' :: ' ' ::
        (provC.fakeDomain 1 ++ ' ' ::
          (provC.fakeDomain 1 ++ ' ' :: '(' ::
            (provC.fakeDomain 1 ++ ')' :: ' ' ::
              (provC.fakeDomain 1 ++ ' ' ::
                (provC.fakeDomain 1 ++ ' ' :: '(' ::
                  (provC.fakeDomain 1 ++ ')' :: [])))))) :=
  (c1_trace_obfuscation provC 0 (by decide) (by decide)).1

end EmailAnon
